import Mathlib

/-!
Verification of the normalization-and-grading engine of the lunar-test quiz
repository.  JavaScript strings are modelled as lists of UTF-16 code units
(`List Nat`); JavaScript numbers are modelled as rationals; `null`/`undefined`
are modelled with `Option`.  Every definition is translated from the source
files (`normalize.ts`, `grading.ts`, `types.ts`); the host `RegExp` engine,
which is not part of the repository, is modelled from the spec.
-/

namespace LunarQuiz

/-- A JavaScript string: its list of UTF-16 code units. -/
abbrev JStr := List Nat

/-- Embed a Lean string literal as a `JStr` (all characters used are in the
Basic Multilingual Plane, where code points and UTF-16 code units agree). -/
def jstr (s : String) : JStr := s.data.map Char.toNat

/-- `FULLWIDTH_OFFSET = '０'.charCodeAt(0) - '0'.charCodeAt(0)` = 0xFF10 - 0x30. -/
def FULLWIDTH_OFFSET : Nat := 0xFF10 - 0x30

/-- The `fullWidthMap` record: full-width punctuation to half-width, with the
`?? char` fallback for characters absent from the record. -/
def fullWidthLookup (c : Nat) : Nat :=
  if c = 0xFF0C then 44        -- ， → ,
  else if c = 0x3002 then 46   -- 。 → .
  else if c = 0xFF1B then 59   -- ； → ;
  else if c = 0xFF1A then 58   -- ： → :
  else if c = 0xFF01 then 33   -- ！ → !
  else if c = 0xFF1F then 63   -- ？ → ?
  else if c = 0xFF08 then 40   -- （ → (
  else if c = 0xFF09 then 41   -- ） → )
  else if c = 0x3010 then 91   -- 【 → [
  else if c = 0x3011 then 93   -- 】 → ]
  else if c = 0x201C then 34   -- “ → "
  else if c = 0x201D then 34   -- ” → "
  else if c = 0x2018 then 39   -- ‘ → '
  else if c = 0x2019 then 39   -- ’ → '
  else if c = 0x3001 then 44   -- 、 → ,
  else if c = 0x3000 then 32   -- full-width space → space
  else c

/-- One character of `toHalfWidth`: full-width digits and Latin letters are
shifted down by the fixed offsets, everything else goes through `fullWidthMap`. -/
def toHalfChar (c : Nat) : Nat :=
  if 0xFF10 ≤ c ∧ c ≤ 0xFF19 then c - FULLWIDTH_OFFSET
  else if 0xFF21 ≤ c ∧ c ≤ 0xFF3A then c - 0xFEE0
  else if 0xFF41 ≤ c ∧ c ≤ 0xFF5A then c - 0xFEE0
  else fullWidthLookup c

/-- `toHalfWidth`: map every character of the string. -/
def toHalfWidth (s : JStr) : JStr := s.map toHalfChar

/-- The ECMAScript whitespace class used by both `trim()` and `\s`:
WhiteSpace ∪ LineTerminator. -/
def isJsWs (c : Nat) : Bool :=
  c = 9 ∨ c = 10 ∨ c = 11 ∨ c = 12 ∨ c = 13 ∨ c = 32 ∨ c = 0xA0 ∨
  c = 0x1680 ∨ (0x2000 ≤ c ∧ c ≤ 0x200A) ∨ c = 0x2028 ∨ c = 0x2029 ∨
  c = 0x202F ∨ c = 0x205F ∨ c = 0x3000 ∨ c = 0xFEFF

/-- `String.prototype.trim()`: drop leading and trailing whitespace. -/
def jsTrim (s : JStr) : JStr :=
  ((s.dropWhile isJsWs).reverse.dropWhile isJsWs).reverse

/-- `replace(/\s+/g, ' ')`: each maximal whitespace run becomes one space.
The flag records whether the previous character was part of a whitespace run. -/
def collapseWsAux : Bool → JStr → JStr
  | _, [] => []
  | prevWs, c :: rest =>
    if isJsWs c then
      if prevWs then collapseWsAux true rest
      else 32 :: collapseWsAux true rest
    else c :: collapseWsAux false rest

/-- `normalizeWhitespace(input) = input.trim().replace(/\s+/g, ' ')`. -/
def normalizeWhitespace (s : JStr) : JStr := collapseWsAux false (jsTrim s)

/-- `toLowerCase()` restricted to the simple ASCII case mapping; every
character the engine's tables produce is case-invariant outside this range. -/
def toLowerCh (c : Nat) : Nat :=
  if 65 ≤ c ∧ c ≤ 90 then c + 32 else c

/-- The three `zhSynonyms` record keys. -/
def zhBeijing : JStr := jstr "北京时间"

def zhUtc8 : JStr := jstr "utc+8"

def zhDongba : JStr := jstr "东八区"

/-- `zhSynonyms[w] ?? w`.  `zhSynonyms` is a plain object literal, so the
property access walks the prototype chain: besides the three own keys, the
inherited members of `Object.prototype` are hit, and since none of them is
nullish the `??` fallback does not apply.  The caller (`join(' ')`, or the
second `normalizeText` inside `equalsText`) coerces the hit to a string:
`__proto__` is `Object.prototype` itself, stringified `"[object Object]"`;
the others are native functions, stringified in the standard
`function name() { [native code] }` form. -/
def zhLookup (w : JStr) : JStr :=
  if w = zhBeijing then zhUtc8
  else if w = zhUtc8 then zhUtc8
  else if w = zhDongba then zhUtc8
  else if w = jstr "__proto__" then jstr "[object Object]"
  else if w = jstr "constructor" then jstr "function Object() { [native code] }"
  else if w = jstr "hasOwnProperty" then jstr "function hasOwnProperty() { [native code] }"
  else if w = jstr "isPrototypeOf" then jstr "function isPrototypeOf() { [native code] }"
  else if w = jstr "propertyIsEnumerable" then
    jstr "function propertyIsEnumerable() { [native code] }"
  else if w = jstr "toLocaleString" then jstr "function toLocaleString() { [native code] }"
  else if w = jstr "toString" then jstr "function toString() { [native code] }"
  else if w = jstr "valueOf" then jstr "function valueOf() { [native code] }"
  else if w = jstr "__defineGetter__" then jstr "function __defineGetter__() { [native code] }"
  else if w = jstr "__defineSetter__" then jstr "function __defineSetter__() { [native code] }"
  else if w = jstr "__lookupGetter__" then jstr "function __lookupGetter__() { [native code] }"
  else if w = jstr "__lookupSetter__" then jstr "function __lookupSetter__() { [native code] }"
  else w

/-- `split(' ')`: split on every single space, keeping empty pieces. -/
def splitOnSpace : JStr → List JStr
  | [] => [[]]
  | c :: rest =>
    if c = 32 then [] :: splitOnSpace rest
    else
      match splitOnSpace rest with
      | [] => [[c]]
      | w :: ws => (c :: w) :: ws

/-- `join(' ')`: interleave a single space between the pieces. -/
def joinSpace : List JStr → JStr
  | [] => []
  | [w] => w
  | w :: ws => w ++ 32 :: joinSpace ws

/-- `normalizeText(value, {lowercase})`: half-width folding, whitespace
collapsing, optional lower-casing (the source lower-cases unless the option is
explicitly `false`), then token-wise synonym substitution. -/
def normalizeText (value : JStr) (lowercase : Bool) : JStr :=
  let halfWidth := toHalfWidth value
  let collapsed := normalizeWhitespace halfWidth
  let lower := if lowercase then collapsed.map toLowerCh else collapsed
  joinSpace ((splitOnSpace lower).map zhLookup)

/-- `equalsText(input, expected, {caseInsensitive, normalizeZh})`; the two
option fields are passed already defaulted (`caseInsensitive ?? true`,
truthiness of `normalizeZh`). -/
def equalsText (input expected : JStr) (caseInsensitive normalizeZh : Bool) : Bool :=
  let normalizedInput := normalizeText input caseInsensitive
  let normalizedExpected := if normalizeZh then zhLookup expected else expected
  let normalizedTarget := normalizeText normalizedExpected caseInsensitive
  normalizedInput = normalizedTarget

/-- ASCII decimal digit. -/
def isDigit (c : Nat) : Bool := 48 ≤ c ∧ c ≤ 57

/-- `parseInt(s, 10)` on a string of decimal digits. -/
def parseDigits (s : JStr) : Nat := s.foldl (fun a c => a * 10 + (c - 48)) 0

/-- Decimal digits of a natural number, with an explicit fuel argument so that
the recursion is structural; `natDec` instantiates the fuel large enough. -/
def natDecAux : Nat → Nat → JStr
  | 0, _ => []
  | fuel + 1, n => if n < 10 then [48 + n] else natDecAux fuel (n / 10) ++ [48 + n % 10]

/-- `Number.prototype.toString()` for a nonnegative integer. -/
def natDec (n : Nat) : JStr := natDecAux (n + 1) n

/-- `pad(value) = value.toString().padStart(2, '0')`. -/
def pad2 (n : Nat) : JStr :=
  let d := natDec n
  if d.length < 2 then 48 :: d else d

/-- The separator class between year and month: hyphen, slash, 年, dot. -/
def isSep1 (c : Nat) : Bool := c = 45 ∨ c = 47 ∨ c = 0x5E74 ∨ c = 46

/-- The separator class between month and day: hyphen, slash, 月, dot. -/
def isSep2 (c : Nat) : Bool := c = 45 ∨ c = 47 ∨ c = 0x6708 ∨ c = 46

/-- Greedy `\d{1,2}` with nothing following it in the pattern: two digits when
two are available, else one. -/
def matchDay : JStr → Option Nat
  | d1 :: d2 :: _ =>
    if isDigit d1 then
      if isDigit d2 then some (10 * (d1 - 48) + (d2 - 48)) else some (d1 - 48)
    else none
  | [d1] => if isDigit d1 then some (d1 - 48) else none
  | [] => none

/-- A month-day separator followed by greedy `\d{1,2}`, at the head of the list. -/
def matchSepDay (l : JStr) : Option Nat :=
  match l with
  | s :: rest => if isSep2 s then matchDay rest else none
  | [] => none

/-- Greedy month digits, a month-day separator, then day digits; the month
quantifier backtracks
from two digits to one when the rest of the pattern fails. -/
def matchMonthDay (l : JStr) : Option (Nat × Nat) :=
  match l with
  | [] => none
  | m1 :: rest =>
    if isDigit m1 then
      let two : Option (Nat × Nat) :=
        match rest with
        | m2 :: rest2 =>
          if isDigit m2 then
            (matchSepDay rest2).map (fun d => (10 * (m1 - 48) + (m2 - 48), d))
          else none
        | [] => none
      match two with
      | some r => some r
      | none => (matchSepDay rest).map (fun d => (m1 - 48, d))
    else none

/-- The whole date pattern (four year digits, separator, month, separator,
day) anchored at the
head of the list, returning the parsed capture groups. -/
def matchDateAt (l : JStr) : Option (Nat × Nat × Nat) :=
  match l with
  | a :: b :: c :: d :: rest =>
    if isDigit a ∧ isDigit b ∧ isDigit c ∧ isDigit d then
      match rest with
      | s :: rest2 =>
        if isSep1 s then
          (matchMonthDay rest2).map (fun md => (parseDigits [a, b, c, d], md.1, md.2))
        else none
      | [] => none
    else none
  | _ => none

/-- `String.prototype.match`: the leftmost position where the pattern matches. -/
def findDate : JStr → Option (Nat × Nat × Nat)
  | [] => none
  | c :: rest =>
    match matchDateAt (c :: rest) with
    | some r => some r
    | none => findDate rest

/-- `parseDateString`: normalize preserving case, find the first year-month-day
pattern, and render `` `${y}-${pad(m)}-${pad(d)}` ``.  The `Number.isNaN`
guards of the source cannot fire: the captures are strings of digits. -/
def parseDateString (input : JStr) : Option JStr :=
  let normalized := normalizeText input false
  match findDate normalized with
  | none => none
  | some (y, m, d) => some (natDec y ++ 45 :: (pad2 m ++ 45 :: pad2 d))

/-- `Number.EPSILON`, the difference between 1 and the next larger double. -/
def EPSILON : ℚ := 1 / 2 ^ 52

/-- Fractional digits after the decimal point, as a rational. -/
def fracVal (ds : JStr) : ℚ := (parseDigits ds : ℚ) / (10 : ℚ) ^ ds.length

/-- `Number(s)` on an already-trimmed string, restricted to the decimal
literal fragment (optional sign, integer digits, optional fractional digits);
`none` models `NaN`.  `Number("")` is `0`. -/
def jsNumber (s : JStr) : Option ℚ :=
  match s with
  | [] => some 0
  | _ =>
    let signRest : ℚ × JStr :=
      match s with
      | 43 :: r => (1, r)
      | 45 :: r => (-1, r)
      | r => (1, r)
    let sign := signRest.1
    let rest := signRest.2
    let intPart := rest.takeWhile isDigit
    let rest2 := rest.dropWhile isDigit
    match rest2 with
    | [] => if intPart = [] then none else some (sign * parseDigits intPart)
    | 46 :: frac =>
      if frac.all isDigit ∧ (intPart ≠ [] ∨ frac ≠ []) then
        some (sign * ((parseDigits intPart : ℚ) + fracVal frac))
      else none
    | _ => none

/-- `normalizeNumberInput`: normalize the text, return `null` on an empty
normalized string, strip every comma, and parse.  In the modelled decimal
fragment every parsed value is finite, so the `Number.isFinite` guard of the
source is the `none` case of `jsNumber`. -/
def normalizeNumberInput (input : JStr) : Option ℚ :=
  let normalized := normalizeText input true
  if normalized = [] then none
  else jsNumber (normalized.filter (fun c => c ≠ 44))

/-- A JavaScript value that can reach `gradeFillin`: a string or a number. -/
inductive JSVal where
  | str (s : JStr)
  | num (q : ℚ)
deriving DecidableEq

/-- Fractional decimal digits of `r / d`, at most `fuel` of them. -/
def fracDigits : Nat → Nat → Nat → JStr
  | 0, _, _ => []
  | fuel + 1, r, d =>
    if r = 0 then [] else (48 + r * 10 / d) :: fracDigits fuel (r * 10 % d) d

/-- `String(number)`.  JavaScript prints the shortest round-trip decimal of
the double; the model prints the terminating decimal expansion of the
rational (up to 20 fractional digits), which agrees on the integers and the
short terminating decimals the engine handles. -/
def numToStr (q : ℚ) : JStr :=
  (if q.num < 0 then [45] else []) ++ natDec (q.num.natAbs / q.den) ++
    (if q.num.natAbs % q.den = 0 then []
     else 46 :: fracDigits 20 (q.num.natAbs % q.den) q.den)

/-- The `FillinRule` tagged union of `types.ts`; `unknown` models an
externally supplied rule document whose `mode` tag is none of the four
recognized tags (the defensive `default` branch of the dispatch). -/
inductive FillinRule where
  | text (answer : Option JStr) (accept : Option (List JStr))
      (caseInsensitive : Option Bool) (normalizeZh : Option Bool)
  | regex (pattern : JStr)
  | number (answer : ℚ) (tolerance : Option ℚ)
  | date (answer : Option JStr) (accept : Option (List JStr))
  | unknown
deriving DecidableEq

/-- Metacharacters outside the modelled regular-expression fragment. -/
def regexMeta (c : Nat) : Bool :=
  c = 92 ∨ c = 91 ∨ c = 93 ∨ c = 123 ∨ c = 125 ∨ c = 63 ∨ c = 42 ∨ c = 43 ∨
  c = 124 ∨ c = 94 ∨ c = 36 ∨ c = 46

/-- Compilation worker: the depth counts currently open groups. -/
def compileRegexAux : JStr → Nat → Option JStr
  | [], 0 => some []
  | [], _ + 1 => none
  | 40 :: rest, depth => compileRegexAux rest (depth + 1)
  | 41 :: _, 0 => none
  | 41 :: rest, depth + 1 => compileRegexAux rest depth
  | c :: rest, depth =>
    if regexMeta c then none else (compileRegexAux rest depth).map (c :: ·)

/-- Modelled from the spec: `new RegExp(pattern)` of the host engine, which is
not part of the repository.  The spec requires that the pattern is compiled,
that a pattern that fails to compile (such as `"("`, an unterminated group) is
recoverable, and that a compiled pattern is tested against the raw user
string.  The model covers the literal fragment: a pattern of literal
characters and balanced groups compiles to its literal text with the group
parentheses stripped; unbalanced parentheses, or metacharacters outside the
fragment, are rejected at compile time. -/
def compileRegex (pattern : JStr) : Option JStr :=
  compileRegexAux pattern 0

/-- Is `p` a prefix of the second list? -/
def listPrefix : JStr → JStr → Bool
  | [], _ => true
  | _ :: _, [] => false
  | c :: cs, d :: ds => c = d && listPrefix cs ds

/-- Modelled from the spec: `regex.test(value)` for a compiled literal
pattern searches for its text as a substring of the value. -/
def regexTest (lit : JStr) : JStr → Bool
  | [] => listPrefix lit []
  | c :: rest => listPrefix lit (c :: rest) || regexTest lit rest

/-- `gradeMcq(userChoiceIdx, answerIdx)`: `false` on `null`/`undefined`, else
exact numeric equality (the source's `Number(...)` coercions are identities on
numbers). -/
def gradeMcq (userChoiceIdx : Option ℚ) (answerIdx : ℚ) : Bool :=
  match userChoiceIdx with
  | none => false
  | some u => decide (u = answerIdx)

/-- `gradeFillin(userInput, rule)` from `grading.ts`; `none` models
`null`/`undefined`.  The function is total: every malformed input grades
`false`, nothing throws. -/
def gradeFillin (userInput : Option JSVal) (rule : FillinRule) : Bool :=
  match userInput with
  | none => false
  | some v =>
    if v = JSVal.str [] then false
    else
      let value : JStr := match v with | .num q => numToStr q | .str s => s
      match rule with
      | .text answer accept caseInsensitive normalizeZh =>
        let ci := caseInsensitive.getD true
        let zh := normalizeZh.getD false
        if (match accept with | some acc => decide (0 < acc.length) | none => false) then
          (accept.getD []).any (fun candidate => equalsText value candidate ci zh)
        else
          match answer with
          | some a => if a.isEmpty then false else equalsText value a ci zh
          | none => false
      | .regex pattern =>
        match compileRegex pattern with
        | some lit => regexTest lit value
        | none => false
      | .number answer tolerance =>
        let userNumber : Option ℚ :=
          match v with | .num q => some q | .str s => normalizeNumberInput s
        match userNumber with
        | none => false
        | some u => decide (|u - answer| ≤ tolerance.getD 0 + EPSILON)
      | .date answer accept =>
        let accepted := (answer.toList ++ accept.getD []).filter (fun s => !s.isEmpty)
        match parseDateString value with
        | none => false
        | some normalizedUser =>
          if accepted.length = 0 then false
          else accepted.any (fun candidate =>
            decide (parseDateString candidate = some normalizedUser))
      | .unknown => false

/-- `QuizMeta` of `types.ts`. -/
structure QuizMeta where
  title : JStr
  note : Option JStr
  standard : Option JStr
  timezone : Option JStr
deriving DecidableEq

/-- `McqQuestion` of `types.ts`. -/
structure McqQuestion where
  id : JStr
  stem : JStr
  options : List JStr
  explain : Option JStr
  score : Option ℚ
deriving DecidableEq

/-- `FillinInputType` of `types.ts` (a UI hint, not read by the grader). -/
inductive FillinInputType where
  | text
  | number
  | date
  | regex
deriving DecidableEq

/-- `FillinQuestion` of `types.ts`. -/
structure FillinQuestion where
  id : JStr
  stem : JStr
  type : FillinInputType
  formatHint : Option JStr
  explain : Option JStr
  score : Option ℚ
deriving DecidableEq

/-- `EssayQuestion` of `types.ts`. -/
structure EssayQuestion where
  id : JStr
  title : JStr
  promptHtml : JStr
deriving DecidableEq

/-- `QuizData` of `types.ts`. -/
structure QuizData where
  meta : QuizMeta
  mcq : List McqQuestion
  fillins : List FillinQuestion
  essay : EssayQuestion
  appendix : Option JStr

/-- `AnswerData`: the multiple-choice answer record is total (its TypeScript
type is `Record<string, number>`); a fill-in rule may be missing for an id,
which the aggregation guards with `rule ? ... : false`. -/
structure AnswerData where
  mcq : JStr → ℚ
  fillins : JStr → Option FillinRule

/-- `getScore(question) = question.score ?? 1`. -/
def getScore (score : Option ℚ) : ℚ := score.getD 1

/-- One per-section accumulator of `summarizeObjective`. -/
structure SectionResult where
  correctIds : List JStr
  incorrectIds : List JStr
  score : ℚ
  total : ℚ
deriving DecidableEq

/-- The `ObjectiveSummary` of `types.ts`. -/
structure ObjectiveSummary where
  mcq : SectionResult
  fillins : SectionResult
  totalScore : ℚ
  totalPossible : ℚ
deriving DecidableEq

/-- The body of the multiple-choice `reduce` of `summarizeObjective`. -/
def mcqStep (mcqAns : JStr → ℚ) (userMcq : JStr → Option ℚ)
    (acc : SectionResult) (item : McqQuestion) : SectionResult :=
  let correct := gradeMcq (userMcq item.id) (mcqAns item.id)
  let score := getScore item.score
  { correctIds := if correct then acc.correctIds ++ [item.id] else acc.correctIds
    incorrectIds :=
      if correct then acc.incorrectIds
      else if (userMcq item.id).isSome then acc.incorrectIds ++ [item.id]
      else acc.incorrectIds
    score := if correct then acc.score + score else acc.score
    total := acc.total + score }

/-- The fill-in verdict of the aggregation: `rule ? gradeFillin(user ?? '', rule) : false`. -/
def fillinVerdict (rules : JStr → Option FillinRule) (userFillins : JStr → Option JSVal)
    (id : JStr) : Bool :=
  match rules id with
  | some rule => gradeFillin (some ((userFillins id).getD (JSVal.str []))) rule
  | none => false

/-- `user !== null && user !== undefined && user !== ''`. -/
def fillinAttempted (user : Option JSVal) : Bool :=
  match user with
  | none => false
  | some (JSVal.str s) => !s.isEmpty
  | some (JSVal.num _) => true

/-- The body of the fill-in `reduce` of `summarizeObjective`. -/
def fillinStep (rules : JStr → Option FillinRule) (userFillins : JStr → Option JSVal)
    (acc : SectionResult) (item : FillinQuestion) : SectionResult :=
  let correct := fillinVerdict rules userFillins item.id
  let score := getScore item.score
  { correctIds := if correct then acc.correctIds ++ [item.id] else acc.correctIds
    incorrectIds :=
      if correct then acc.incorrectIds
      else if fillinAttempted (userFillins item.id) then acc.incorrectIds ++ [item.id]
      else acc.incorrectIds
    score := if correct then acc.score + score else acc.score
    total := acc.total + score }

/-- `summarizeObjective(quiz, answers, userMcq, userFillins)`: the two section
`reduce`s starting from empty accumulators, plus the engine-wide totals. -/
def summarizeObjective (quiz : QuizData) (answers : AnswerData)
    (userMcq : JStr → Option ℚ) (userFillins : JStr → Option JSVal) : ObjectiveSummary :=
  let mcqResult := quiz.mcq.foldl (mcqStep answers.mcq userMcq) ⟨[], [], 0, 0⟩
  let fillinResult := quiz.fillins.foldl (fillinStep answers.fillins userFillins) ⟨[], [], 0, 0⟩
  { mcq := mcqResult
    fillins := fillinResult
    totalScore := mcqResult.score + fillinResult.score
    totalPossible := mcqResult.total + fillinResult.total }

/-- `computeObjectiveScore` returns the engine-wide earned score. -/
def computeObjectiveScore (quiz : QuizData) (answers : AnswerData)
    (userMcq : JStr → Option ℚ) (userFillins : JStr → Option JSVal) : ℚ :=
  (summarizeObjective quiz answers userMcq userFillins).totalScore

/-- The shape actually produced by `parseDateString`: one to four year
digits, no padding, then zero-padded two-digit month and day. -/
def ymdShape (r : JStr) : Bool :=
  decide (1 ≤ (r.takeWhile isDigit).length) && decide ((r.takeWhile isDigit).length ≤ 4) &&
    (match r.dropWhile isDigit with
     | 45 :: m1 :: m2 :: 45 :: d1 :: d2 :: [] =>
       isDigit m1 && isDigit m2 && isDigit d1 && isDigit d2
     | _ => false)

/-- The shape the claim asserts: zero-padded `YYYY-MM-DD`, 4-digit year. -/
def isPaddedYMD (r : JStr) : Bool :=
  match r with
  | [y1, y2, y3, y4, 45, m1, m2, 45, d1, d2] =>
    isDigit y1 && isDigit y2 && isDigit y3 && isDigit y4 &&
      isDigit m1 && isDigit m2 && isDigit d1 && isDigit d2
  | _ => false

/-- The multiple-choice verdict of the aggregation for one question id. -/
def mcqVerdict (mcqAns : JStr → ℚ) (um : JStr → Option ℚ) (id : JStr) : Bool :=
  gradeMcq (um id) (mcqAns id)

/-- A quiz with two weighted fill-in questions (weights 2 and 3). -/
def exQ1 : FillinQuestion := ⟨jstr "q1", [], FillinInputType.text, none, none, some 2⟩

def exQ2 : FillinQuestion := ⟨jstr "q2", [], FillinInputType.text, none, none, some 3⟩

def exQuiz : QuizData := ⟨⟨[], none, none, none⟩, [], [exQ1, exQ2], ⟨[], [], []⟩, none⟩

def exAnswers : AnswerData :=
  ⟨fun _ => 0,
   fun id =>
     if id = jstr "q1" then some (FillinRule.text (some (jstr "x")) none none none)
     else if id = jstr "q2" then some (FillinRule.text (some (jstr "y")) none none none)
     else none⟩

/-- The user answers the first question correctly and leaves the second blank. -/
def exUser (id : JStr) : Option JSVal :=
  if id = jstr "q1" then some (JSVal.str (jstr "x")) else none

/-- A quiz whose multiple-choice section declares the same id twice. -/
def dupQ : McqQuestion := ⟨jstr "a", [], [], none, none⟩

def dupQuiz : QuizData := ⟨⟨[], none, none, none⟩, [dupQ, dupQ], [], ⟨[], [], []⟩, none⟩

def dupAnswers : AnswerData := ⟨fun _ => 1, fun _ => none⟩

/-- Head of the string is not whitespace (vacuously true of the empty string). -/
def headNonWs : JStr → Bool
  | [] => true
  | c :: _ => !isJsWs c

/-- Last character of the string is not whitespace (vacuously true when empty). -/
def lastNonWs : JStr → Bool
  | [] => true
  | [c] => !isJsWs c
  | _ :: rest => lastNonWs rest

/-- Scanning after a word character: whitespace may appear only as a single
interior space followed by a word character. -/
def canonTail : JStr → Bool
  | [] => true
  | c :: rest =>
    if c = 32 then
      match rest with
      | [] => false
      | d :: _ => !isJsWs d && canonTail rest
    else !isJsWs c && canonTail rest

/-- Canonical whitespace form: empty, or a word-initial string whose interior
whitespace is single spaces and which does not end in a space. -/
def canonWs : JStr → Bool
  | [] => true
  | c :: rest => !isJsWs c && canonTail (c :: rest)

/-!  ## Claim theorems  -/

/-- C1, counterexample.  The claim states that with the default
`normalizeZh=false`, `equalsText("北京时间", "utc+8")` returns `false`.  It
does not: `normalizeText` substitutes the synonym table token-wise on the
input side unconditionally, so the call returns `true`. -/
theorem equalsText_default_not_false :
    ¬ (equalsText (jstr "北京时间") (jstr "utc+8") true false = false) := by decide

/-- C1, amended.  `equalsText("北京时间", "utc+8", {normalizeZh:true})` and
`equalsText("北京时间", "utc+8")` (default `normalizeZh=false`) both return
`true`: the `normalizeZh` option adds a whole-string substitution of the
expected side, but the token-wise synonym substitution inside `normalizeText`
applies to both sides on every call. -/
theorem equalsText_synonym_both_true :
    equalsText (jstr "北京时间") (jstr "utc+8") true true = true ∧
    equalsText (jstr "北京时间") (jstr "utc+8") true false = true := by
  exact ⟨by decide, by decide⟩

/-- C4.  For every rule of every kind (text, regex, number, date, or an
unrecognized tag), `gradeFillin` returns `false` immediately when the user
input is `null`/`undefined` (modelled `none`) or the empty string; the model
is a total function, which is the shallow form of "never throws". -/
theorem gradeFillin_absent_input_false (rule : FillinRule) :
    gradeFillin none rule = false ∧ gradeFillin (some (JSVal.str [])) rule = false :=
  ⟨rfl, rfl⟩

/-- C9.  The emptiness guard of `gradeFillin` rejects only the exact empty
string: the whitespace-only input `" "` proceeds to rule dispatch, and for a
regex rule whose pattern is a single space it grades `true`, while the empty
string grades `false` on the same rule. -/
theorem gradeFillin_whitespace_not_absent :
    gradeFillin (some (JSVal.str [32])) (FillinRule.regex [32]) = true ∧
    gradeFillin (some (JSVal.str [])) (FillinRule.regex [32]) = false := by
  exact ⟨by decide, by decide⟩

/-- C5.  For a regex rule, a pattern that fails to compile makes `gradeFillin`
return `false` (the failure is never propagated: the model is total); a
pattern that compiles is tested against the raw, non-normalized user string;
and concretely `gradeFillin("abc(", {mode:"regex", pattern:"("}) = false`.
The host regex engine is modelled from the spec (literal fragment). -/
theorem gradeFillin_regex_compile_failure (pattern v : JStr) :
    (compileRegex pattern = none →
      gradeFillin (some (JSVal.str v)) (FillinRule.regex pattern) = false) ∧
    (∀ lit, v ≠ [] → compileRegex pattern = some lit →
      gradeFillin (some (JSVal.str v)) (FillinRule.regex pattern) = regexTest lit v) ∧
    gradeFillin (some (JSVal.str (jstr "abc("))) (FillinRule.regex (jstr "(")) = false := by
  refine ⟨?_, ?_, by decide⟩
  · intro hc
    cases v with
    | nil => rfl
    | cons c rest => simp [gradeFillin, hc]
  · intro lit hv hc
    cases v with
    | nil => exact absurd rfl hv
    | cons c rest => simp [gradeFillin, hc]

/-- C5, witness: the concrete invalid pattern `"("` fails to compile and the
grade is `false`; the concrete single-space pattern compiles and the grade is
the substring test on the raw input. -/
theorem gradeFillin_regex_compile_failure_witness :
    gradeFillin (some (JSVal.str (jstr "xy"))) (FillinRule.regex (jstr "(")) = false ∧
    gradeFillin (some (JSVal.str (jstr " a"))) (FillinRule.regex [32]) =
      regexTest [32] (jstr " a") := by
  refine ⟨(gradeFillin_regex_compile_failure (jstr "(") (jstr "xy")).1 (by decide), ?_⟩
  exact (gradeFillin_regex_compile_failure [32] (jstr " a")).2.1 [32] (by decide) (by decide)

/-- C6, counterexample.  The claim states that `normalizeNumberInput` returns
`null` whenever the remaining string *after comma-stripping* is empty.  On the
input `","` the stripped remainder is empty, yet the function returns `0`: the
emptiness check runs before the commas are stripped, and `Number("")` is `0`. -/
theorem normalizeNumberInput_comma_counterexample :
    (normalizeText (jstr ",") true).filter (fun c => c ≠ 44) = [] ∧
    normalizeNumberInput (jstr ",") = some 0 :=
  ⟨by decide, rfl⟩

/-- C6, amended.  `normalizeNumberInput` normalizes the text (lowercase
default true) and returns `null` when the *normalized* string is empty
(before comma-stripping); otherwise it strips the thousands-separator commas
and returns the result of parsing the remainder, `null` when that does not
parse to a finite number.  A nonempty string of commas therefore parses as 0. -/
theorem normalizeNumberInput_characterization :
    (∀ s, normalizeText s true = [] → normalizeNumberInput s = none) ∧
    (∀ s, normalizeText s true ≠ [] →
      normalizeNumberInput s = jsNumber ((normalizeText s true).filter (fun c => c ≠ 44))) ∧
    normalizeNumberInput (jstr "1,234") = some 1234 ∧
    normalizeNumberInput (jstr "abc") = none ∧
    normalizeNumberInput (jstr " ") = none := by
  refine ⟨?_, ?_, ?_, by decide, by decide⟩
  · intro s h
    simp [normalizeNumberInput, h]
  · intro s h
    simp [normalizeNumberInput, h]
  · have h : normalizeNumberInput (jstr "1,234") = some ((1 : ℚ) * ((1234 : Nat) : ℚ)) := rfl
    rw [h]; norm_num

/-- C6, witness: the whitespace-only string normalizes to the empty string
and the function returns `null` for it. -/
theorem normalizeNumberInput_characterization_witness :
    normalizeNumberInput [32] = none :=
  normalizeNumberInput_characterization.1 [32] (by decide)

/-- Evaluation of the number branch on an already-numeric input. -/
theorem gradeFillin_num_eval (answer : ℚ) (tolerance : Option ℚ) (q : ℚ) :
    gradeFillin (some (JSVal.num q)) (FillinRule.number answer tolerance) =
      decide (|q - answer| ≤ tolerance.getD 0 + EPSILON) := by
  simp [gradeFillin]

/-- Evaluation of the number branch when string coercion fails. -/
theorem gradeFillin_str_number_none {s : JStr} (h : s ≠ [])
    (hn : normalizeNumberInput s = none) (answer : ℚ) (tolerance : Option ℚ) :
    gradeFillin (some (JSVal.str s)) (FillinRule.number answer tolerance) = false := by
  simp [gradeFillin, h, hn]

/-- Evaluation of the number branch when string coercion succeeds. -/
theorem gradeFillin_str_number_some {s : JStr} {u : ℚ} (h : s ≠ [])
    (hn : normalizeNumberInput s = some u) (answer : ℚ) (tolerance : Option ℚ) :
    gradeFillin (some (JSVal.str s)) (FillinRule.number answer tolerance) =
      decide (|u - answer| ≤ tolerance.getD 0 + EPSILON) := by
  simp [gradeFillin, h, hn]

/-- C3.  For a number rule: an already-numeric input is used directly, a
string input is coerced with `normalizeNumberInput`, a coercion failure
grades `false`, and otherwise the verdict is
`|userNumber - answer| ≤ tolerance + ε` with `ε = Number.EPSILON = 2⁻⁵²` and
`tolerance` defaulting to 0; concretely `"29.531"` is accepted and `"29.6"`
rejected against answer 29.531 with tolerance 0.002. -/
theorem gradeFillin_number_tolerance :
    (∀ answer tolerance q,
      gradeFillin (some (JSVal.num q)) (FillinRule.number answer tolerance) =
        decide (|q - answer| ≤ tolerance.getD 0 + EPSILON)) ∧
    (∀ answer tolerance s, s ≠ [] → normalizeNumberInput s = none →
      gradeFillin (some (JSVal.str s)) (FillinRule.number answer tolerance) = false) ∧
    (∀ answer tolerance s u, s ≠ [] → normalizeNumberInput s = some u →
      gradeFillin (some (JSVal.str s)) (FillinRule.number answer tolerance) =
        decide (|u - answer| ≤ tolerance.getD 0 + EPSILON)) ∧
    gradeFillin (some (JSVal.str (jstr "29.531")))
      (FillinRule.number (29531 / 1000) (some (2 / 1000))) = true ∧
    gradeFillin (some (JSVal.str (jstr "29.6")))
      (FillinRule.number (29531 / 1000) (some (2 / 1000))) = false := by
  refine ⟨fun a t q => gradeFillin_num_eval a t q,
    fun a t s h hn => gradeFillin_str_number_none h hn a t,
    fun a t s u h hn => gradeFillin_str_number_some h hn a t, ?_, ?_⟩
  · have e1 : normalizeNumberInput (jstr "29.531") =
        some ((1 : ℚ) * (((29 : Nat) : ℚ) + ((531 : Nat) : ℚ) / (10 : ℚ) ^ 3)) := rfl
    rw [gradeFillin_str_number_some (by decide) e1, decide_eq_true_eq]
    norm_num [EPSILON]
  · have e2 : normalizeNumberInput (jstr "29.6") =
        some ((1 : ℚ) * (((29 : Nat) : ℚ) + ((6 : Nat) : ℚ) / (10 : ℚ) ^ 1)) := rfl
    rw [gradeFillin_str_number_some (by decide) e2]
    simp only [decide_eq_false_iff_not]
    rw [abs_le]
    norm_num [EPSILON]

/-- C3, witness: the unparseable string `"abc"` grades `false` against a
number rule. -/
theorem gradeFillin_number_tolerance_witness :
    gradeFillin (some (JSVal.str (jstr "abc"))) (FillinRule.number 1 none) = false :=
  gradeFillin_number_tolerance.2.1 1 none (jstr "abc") (by decide) (by decide)

/-!  ### Shape of `parseDateString` results  -/

theorem isDigit_bounds {c : Nat} (h : isDigit c = true) : 48 ≤ c ∧ c ≤ 57 := by
  simpa [isDigit] using h

theorem natDecAux_irrel : ∀ f1 f2 n, n < f1 → n < f2 → natDecAux f1 n = natDecAux f2 n := by
  intro f1
  induction f1 with
  | zero => intro f2 n h; omega
  | succ f ih =>
    intro f2 n h1 h2
    cases f2 with
    | zero => omega
    | succ f2 =>
      simp only [natDecAux]
      by_cases h10 : n < 10
      · simp [h10]
      · have hd : n / 10 < n := Nat.div_lt_self (by omega) (by omega)
        simp only [h10, if_false]
        rw [ih f2 (n / 10) (by omega) (by omega)]

/-- The recursion equation of `natDec`. -/
theorem natDec_eq (n : Nat) :
    natDec n = if n < 10 then [48 + n] else natDec (n / 10) ++ [48 + n % 10] := by
  show natDecAux (n + 1) n = _
  simp only [natDecAux]
  by_cases h10 : n < 10
  · simp [h10]
  · have hd : n / 10 < n := Nat.div_lt_self (by omega) (by omega)
    simp only [h10, if_false]
    rw [natDecAux_irrel n (n / 10 + 1) (n / 10) (by omega) (by omega)]
    rfl

theorem natDec_mem_digits : ∀ n, ∀ c ∈ natDec n, isDigit c = true := by
  intro n
  induction n using Nat.strong_induction_on with
  | _ n ih =>
    intro c hc
    rw [natDec_eq] at hc
    by_cases h10 : n < 10
    · simp [h10] at hc
      simp [isDigit]; omega
    · simp [h10] at hc
      rcases hc with hc | hc
      · exact ih (n / 10) (Nat.div_lt_self (by omega) (by omega)) c hc
      · subst hc; simp [isDigit]; omega

theorem natDec_ne_nil (n : Nat) : natDec n ≠ [] := by
  rw [natDec_eq]
  by_cases h10 : n < 10 <;> simp [h10]

theorem natDec_length_le : ∀ k n, n < 10 ^ (k + 1) → (natDec n).length ≤ k + 1 := by
  intro k
  induction k with
  | zero =>
    intro n h
    rw [natDec_eq, if_pos (by omega)]
    rfl
  | succ k ih =>
    intro n h
    rw [natDec_eq]
    by_cases h10 : n < 10
    · simp [h10]
    · rw [if_neg h10]
      have hlt : n / 10 < 10 ^ (k + 1) := by
        rw [Nat.div_lt_iff_lt_mul (by omega)]
        calc n < 10 ^ (k + 2) := h
        _ = 10 ^ (k + 1) * 10 := by ring
      have := ih (n / 10) hlt
      simp only [List.length_append, List.length_cons, List.length_nil]
      omega

theorem pad2_two_digits {m : Nat} (h : m < 100) :
    ∃ a b, pad2 m = [a, b] ∧ isDigit a = true ∧ isDigit b = true := by
  by_cases h10 : m < 10
  · refine ⟨48, 48 + m, ?_, by decide, by simp [isDigit]; omega⟩
    show (let d := natDec m; if d.length < 2 then 48 :: d else d) = [48, 48 + m]
    rw [natDec_eq, if_pos h10]
    rfl
  · have e1 : natDec (m / 10) = [48 + m / 10] := by
      rw [natDec_eq, if_pos (by omega)]
    have e : natDec m = [48 + m / 10, 48 + m % 10] := by
      rw [natDec_eq, if_neg h10, e1]
      rfl
    refine ⟨48 + m / 10, 48 + m % 10, ?_, by simp [isDigit]; omega, by simp [isDigit]; omega⟩
    show (let d := natDec m; if d.length < 2 then 48 :: d else d) = _
    rw [e]
    rfl

theorem matchDay_lt {l : JStr} {d : Nat} (h : matchDay l = some d) : d < 100 := by
  match l with
  | [] => simp [matchDay] at h
  | [d1] =>
    simp only [matchDay] at h
    by_cases h1 : isDigit d1 = true
    · rw [if_pos h1] at h
      have := isDigit_bounds h1
      simp at h
      omega
    · simp [h1] at h
  | d1 :: d2 :: t =>
    simp only [matchDay] at h
    by_cases h1 : isDigit d1 = true
    · rw [if_pos h1] at h
      have b1 := isDigit_bounds h1
      by_cases h2 : isDigit d2 = true
      · have b2 := isDigit_bounds h2
        rw [if_pos h2] at h
        simp at h
        omega
      · rw [if_neg h2] at h
        simp at h
        omega
    · simp [h1] at h

theorem matchSepDay_lt {l : JStr} {d : Nat} (h : matchSepDay l = some d) : d < 100 := by
  match l with
  | [] => simp [matchSepDay] at h
  | s :: rest =>
    simp only [matchSepDay] at h
    by_cases hs : isSep2 s = true
    · rw [if_pos hs] at h
      exact matchDay_lt h
    · simp [hs] at h

theorem matchMonthDay_lt {l : JStr} {m d : Nat} (h : matchMonthDay l = some (m, d)) :
    m < 100 ∧ d < 100 := by
  match l with
  | [] => simp [matchMonthDay] at h
  | m1 :: rest =>
    simp only [matchMonthDay] at h
    by_cases h1 : isDigit m1 = true
    · rw [if_pos h1] at h
      have b1 := isDigit_bounds h1
      match rest with
      | [] =>
        simp only [matchSepDay, Option.map] at h
        simp at h
      | m2 :: rest2 =>
        by_cases h2 : isDigit m2 = true
        · have b2 := isDigit_bounds h2
          simp only [h2, if_true] at h
          cases hsd : matchSepDay rest2 with
          | some d0 =>
            rw [hsd] at h
            simp at h
            have := matchSepDay_lt hsd
            omega
          | none =>
            rw [hsd] at h
            simp at h
            cases hsd2 : matchSepDay (m2 :: rest2) with
            | some d0 =>
              rw [hsd2] at h
              simp at h
              have := matchSepDay_lt hsd2
              omega
            | none => rw [hsd2] at h; simp at h
        · simp only [h2, if_false] at h
          cases hsd : matchSepDay (m2 :: rest2) with
          | some d0 =>
            rw [hsd] at h
            simp at h
            have := matchSepDay_lt hsd
            omega
          | none => rw [hsd] at h; simp at h
    · simp [h1] at h

theorem matchDateAt_bounds {l : JStr} {y m d : Nat}
    (h : matchDateAt l = some (y, m, d)) : y < 10000 ∧ m < 100 ∧ d < 100 := by
  unfold matchDateAt at h
  split at h
  · rename_i a b c e rest
    split at h
    · rename_i hd
      have ba := isDigit_bounds hd.1
      have bb := isDigit_bounds hd.2.1
      have bc := isDigit_bounds hd.2.2.1
      have be := isDigit_bounds hd.2.2.2
      split at h
      · rename_i s rest2
        split at h
        · rename_i hs
          cases hmd : matchMonthDay rest2 with
          | some md =>
            obtain ⟨m1, d1⟩ := md
            rw [hmd] at h
            simp at h
            obtain ⟨hy, hm, hdd⟩ := h
            subst hm
            subst hdd
            have hb := matchMonthDay_lt hmd
            refine ⟨?_, hb.1, hb.2⟩
            subst hy
            simp [parseDigits, List.foldl]
            omega
          | none => rw [hmd] at h; simp at h
        · simp at h
      · simp at h
    · simp at h
  · simp at h

theorem findDate_bounds : ∀ l : JStr, ∀ y m d : Nat,
    findDate l = some (y, m, d) → y < 10000 ∧ m < 100 ∧ d < 100 := by
  intro l
  induction l with
  | nil => intro y m d h; simp [findDate] at h
  | cons c rest ih =>
    intro y m d h
    simp only [findDate] at h
    cases hm : matchDateAt (c :: rest) with
    | some r =>
      rw [hm] at h
      simp at h
      subst h
      exact matchDateAt_bounds hm
    | none =>
      rw [hm] at h
      exact ih y m d h

theorem takeWhile_append_all {p : Nat → Bool} {a : JStr} (h : ∀ c ∈ a, p c = true)
    {x : Nat} (hx : p x = false) (b : JStr) : (a ++ x :: b).takeWhile p = a := by
  induction a with
  | nil => simp [List.takeWhile_cons, hx]
  | cons c t ih =>
    simp [List.takeWhile_cons, h c (by simp), ih (fun e he => h e (by simp [he]))]

theorem dropWhile_append_all {p : Nat → Bool} {a : JStr} (h : ∀ c ∈ a, p c = true)
    {x : Nat} (hx : p x = false) (b : JStr) : (a ++ x :: b).dropWhile p = x :: b := by
  induction a with
  | nil => simp [List.dropWhile_cons, hx]
  | cons c t ih =>
    simp [List.dropWhile_cons, h c (by simp), ih (fun e he => h e (by simp [he]))]

/-- C7, counterexample.  The claim states every successful `parseDateString`
result is a zero-padded `YYYY-MM-DD` string with a 4-digit year; the source
pads only month and day, so a matched year with leading zeros renders
unpadded: `"0012年3月4日"` yields `"12-03-04"`. -/
theorem parseDateString_year_counterexample :
    parseDateString (jstr "0012年3月4日") = some (jstr "12-03-04") ∧
    isPaddedYMD (jstr "12-03-04") = false := by
  exact ⟨by decide, by decide⟩

/-- C7, amended.  On success `parseDateString` returns a string of one to
four unpadded year digits, a hyphen, a zero-padded two-digit month, a hyphen,
and a zero-padded two-digit day, with no calendar-validity check (month 13
and day 32 are accepted as-is); `parseDateString("2034年2月19日") ==
"2034-02-19"` and `parseDateString("no date here") == null`. -/
theorem parseDateString_shape :
    (∀ input r, parseDateString input = some r → ymdShape r = true) ∧
    parseDateString (jstr "2034年2月19日") = some (jstr "2034-02-19") ∧
    parseDateString (jstr "no date here") = none ∧
    parseDateString (jstr "2034-13-32") = some (jstr "2034-13-32") := by
  refine ⟨?_, by decide, by decide, by decide⟩
  intro input r h
  simp only [parseDateString] at h
  cases hf : findDate (normalizeText input false) with
  | none => rw [hf] at h; simp at h
  | some t =>
    obtain ⟨y, m, d⟩ := t
    rw [hf] at h
    simp at h
    obtain ⟨hy4, hm2, hd2⟩ := findDate_bounds _ y m d hf
    obtain ⟨a1, a2, hpm, hma, hmb⟩ := pad2_two_digits hm2
    obtain ⟨b1, b2, hpd, hda, hdb⟩ := pad2_two_digits hd2
    subst h
    unfold ymdShape
    rw [hpm, hpd]
    have hdig := natDec_mem_digits y
    have htw : (natDec y ++ 45 :: ([a1, a2] ++ 45 :: [b1, b2])).takeWhile isDigit = natDec y :=
      takeWhile_append_all hdig (by decide) _
    have hdw : (natDec y ++ 45 :: ([a1, a2] ++ 45 :: [b1, b2])).dropWhile isDigit =
        45 :: ([a1, a2] ++ 45 :: [b1, b2]) :=
      dropWhile_append_all hdig (by decide) _
    rw [htw, hdw]
    have l1 : 1 ≤ (natDec y).length := List.length_pos.mpr (natDec_ne_nil y)
    have l2 : (natDec y).length ≤ 4 := natDec_length_le 3 y (by norm_num; omega)
    simp [hma, hmb, hda, hdb, l1, l2]

/-- C7, witness: the shape predicate holds of the concrete result
`"2034-02-19"` produced from `"2034年2月19日"`. -/
theorem parseDateString_shape_witness : ymdShape (jstr "2034-02-19") = true :=
  parseDateString_shape.1 (jstr "2034年2月19日") (jstr "2034-02-19") (by decide)

/-!  ### Aggregation  -/

theorem foldl_mcqStep (mcqAns : JStr → ℚ) (um : JStr → Option ℚ) :
    ∀ (l : List McqQuestion) (acc : SectionResult),
    l.foldl (mcqStep mcqAns um) acc = SectionResult.mk
      (acc.correctIds ++ (l.filter (fun q => mcqVerdict mcqAns um q.id)).map McqQuestion.id)
      (acc.incorrectIds ++
        (l.filter (fun q => !mcqVerdict mcqAns um q.id && (um q.id).isSome)).map McqQuestion.id)
      (acc.score + ((l.filter (fun q => mcqVerdict mcqAns um q.id)).map
        (fun q => getScore q.score)).sum)
      (acc.total + (l.map (fun q => getScore q.score)).sum) := by
  intro l
  induction l with
  | nil => intro acc; simp
  | cons q t ih =>
    intro acc
    rw [List.foldl_cons, ih]
    by_cases hv : mcqVerdict mcqAns um q.id = true
    · have hg : gradeMcq (um q.id) (mcqAns q.id) = true := hv
      simp [mcqStep, hg, hv, List.filter_cons, add_assoc]
    · have hg : gradeMcq (um q.id) (mcqAns q.id) = false := by
        simpa [mcqVerdict] using hv
      by_cases ha : (um q.id).isSome = true
      · simp [mcqStep, hg, hv, ha, List.filter_cons, add_assoc]
      · simp [mcqStep, hg, hv, ha, List.filter_cons, add_assoc]

theorem foldl_fillinStep (rules : JStr → Option FillinRule) (uf : JStr → Option JSVal) :
    ∀ (l : List FillinQuestion) (acc : SectionResult),
    l.foldl (fillinStep rules uf) acc = SectionResult.mk
      (acc.correctIds ++ (l.filter (fun q => fillinVerdict rules uf q.id)).map FillinQuestion.id)
      (acc.incorrectIds ++
        (l.filter (fun q => !fillinVerdict rules uf q.id && fillinAttempted (uf q.id))).map
          FillinQuestion.id)
      (acc.score + ((l.filter (fun q => fillinVerdict rules uf q.id)).map
        (fun q => getScore q.score)).sum)
      (acc.total + (l.map (fun q => getScore q.score)).sum) := by
  intro l
  induction l with
  | nil => intro acc; simp
  | cons q t ih =>
    intro acc
    rw [List.foldl_cons, ih]
    by_cases hv : fillinVerdict rules uf q.id = true
    · simp [fillinStep, hv, List.filter_cons, add_assoc]
    · by_cases ha : fillinAttempted (uf q.id) = true
      · simp [fillinStep, hv, ha, List.filter_cons, add_assoc]
      · simp [fillinStep, hv, ha, List.filter_cons, add_assoc]

/-- The characterization of the multiple-choice section summary. -/
theorem summarize_mcq_eq (quiz : QuizData) (answers : AnswerData)
    (um : JStr → Option ℚ) (uf : JStr → Option JSVal) :
    (summarizeObjective quiz answers um uf).mcq = SectionResult.mk
      ((quiz.mcq.filter (fun q => mcqVerdict answers.mcq um q.id)).map McqQuestion.id)
      ((quiz.mcq.filter (fun q => !mcqVerdict answers.mcq um q.id && (um q.id).isSome)).map
        McqQuestion.id)
      (((quiz.mcq.filter (fun q => mcqVerdict answers.mcq um q.id)).map
        (fun q => getScore q.score)).sum)
      ((quiz.mcq.map (fun q => getScore q.score)).sum) := by
  show (quiz.mcq.foldl (mcqStep answers.mcq um) ⟨[], [], 0, 0⟩) = _
  rw [foldl_mcqStep]
  simp

/-- The characterization of the fill-in section summary. -/
theorem summarize_fillins_eq (quiz : QuizData) (answers : AnswerData)
    (um : JStr → Option ℚ) (uf : JStr → Option JSVal) :
    (summarizeObjective quiz answers um uf).fillins = SectionResult.mk
      ((quiz.fillins.filter (fun q => fillinVerdict answers.fillins uf q.id)).map
        FillinQuestion.id)
      ((quiz.fillins.filter
        (fun q => !fillinVerdict answers.fillins uf q.id && fillinAttempted (uf q.id))).map
        FillinQuestion.id)
      (((quiz.fillins.filter (fun q => fillinVerdict answers.fillins uf q.id)).map
        (fun q => getScore q.score)).sum)
      ((quiz.fillins.map (fun q => getScore q.score)).sum) := by
  show (quiz.fillins.foldl (fillinStep answers.fillins uf) ⟨[], [], 0, 0⟩) = _
  rw [foldl_fillinStep]
  simp

/-- Grading the empty string is `false` for every rule (helper shared by the
aggregation proofs). -/
theorem gradeFillin_empty_str (rule : FillinRule) :
    gradeFillin (some (JSVal.str [])) rule = false := rfl

/-- C2.  Per section, `summarizeObjective` earns exactly the weights of the
verdict-true questions (default weight 1), totals all weights, lists in
`correctIds` exactly the verdict-true ids and in `incorrectIds` exactly the
attempted-and-wrong ids, in declaration order; an untouched question has a
false verdict and is in neither list.  For the two-question fill-in example
(weights 2 and 3, first answered correctly, second blank) the section summary
is `{score:2, total:5, correctIds:[q1], incorrectIds:[]}`. -/
theorem summarizeObjective_scoring :
    (∀ quiz answers um uf,
      (summarizeObjective quiz answers um uf).mcq = SectionResult.mk
        ((quiz.mcq.filter (fun q => mcqVerdict answers.mcq um q.id)).map McqQuestion.id)
        ((quiz.mcq.filter
          (fun q => !mcqVerdict answers.mcq um q.id && (um q.id).isSome)).map McqQuestion.id)
        (((quiz.mcq.filter (fun q => mcqVerdict answers.mcq um q.id)).map
          (fun q => getScore q.score)).sum)
        ((quiz.mcq.map (fun q => getScore q.score)).sum) ∧
      (summarizeObjective quiz answers um uf).fillins = SectionResult.mk
        ((quiz.fillins.filter (fun q => fillinVerdict answers.fillins uf q.id)).map
          FillinQuestion.id)
        ((quiz.fillins.filter
          (fun q => !fillinVerdict answers.fillins uf q.id && fillinAttempted (uf q.id))).map
          FillinQuestion.id)
        (((quiz.fillins.filter (fun q => fillinVerdict answers.fillins uf q.id)).map
          (fun q => getScore q.score)).sum)
        ((quiz.fillins.map (fun q => getScore q.score)).sum)) ∧
    getScore none = 1 ∧
    (∀ mcqAns um id, um id = none → mcqVerdict mcqAns um id = false) ∧
    (∀ rules uf id, uf id = none → fillinVerdict rules uf id = false) ∧
    (summarizeObjective exQuiz exAnswers (fun _ => none) exUser).fillins =
      SectionResult.mk [jstr "q1"] [] 2 5 := by
  refine ⟨fun quiz answers um uf =>
      ⟨summarize_mcq_eq quiz answers um uf, summarize_fillins_eq quiz answers um uf⟩,
    rfl, ?_, ?_, ?_⟩
  · intro mcqAns um id h
    simp [mcqVerdict, gradeMcq, h]
  · intro rules uf id h
    unfold fillinVerdict
    cases hr : rules id with
    | none => rfl
    | some r => simp [h, gradeFillin_empty_str]
  · rw [summarize_fillins_eq]
    have hv1 : fillinVerdict exAnswers.fillins exUser (jstr "q1") = true := by decide
    have hv2 : fillinVerdict exAnswers.fillins exUser (jstr "q2") = false := by decide
    have ha2 : fillinAttempted (exUser (jstr "q2")) = false := by decide
    simp [exQuiz, exQ1, exQ2, List.filter_cons, hv1, hv2, ha2, getScore]
    norm_num

/-- C2, witness: an untouched question has a false verdict in both sections. -/
theorem summarizeObjective_scoring_witness :
    mcqVerdict (fun _ => 0) (fun _ => none) [] = false ∧
    fillinVerdict (fun _ => none) (fun _ => none) [] = false :=
  ⟨summarizeObjective_scoring.2.2.1 (fun _ => 0) (fun _ => none) [] rfl,
   summarizeObjective_scoring.2.2.2.1 (fun _ => none) (fun _ => none) [] rfl⟩

/-- C10, counterexample.  Nothing forbids two questions with the same id;
they then receive the same verdict, and the id is pushed once per question,
so `correctIds` can list an id twice — the claim's "each at most once" fails. -/
theorem summarize_duplicate_id_counterexample :
    (summarizeObjective dupQuiz dupAnswers (fun _ => some 1) (fun _ => none)).mcq.correctIds =
      [jstr "a", jstr "a"] ∧
    ¬ (summarizeObjective dupQuiz dupAnswers
        (fun _ => some 1) (fun _ => none)).mcq.correctIds.Nodup := by
  have hv : mcqVerdict dupAnswers.mcq (fun _ => some 1) (jstr "a") = true := by
    simp [mcqVerdict, gradeMcq, dupAnswers]
  have h := summarize_mcq_eq dupQuiz dupAnswers (fun _ => some 1) (fun _ => none)
  constructor
  · rw [h]
    simp [dupQuiz, dupQ, List.filter_cons, hv]
  · rw [h]
    simp [dupQuiz, dupQ, List.filter_cons, hv]

/-- C10, amended.  Within each section, `correctIds` and `incorrectIds` are
disjoint and are sublists of the section's question ids in declaration order
(so, *assuming the section's ids are pairwise distinct*, each id appears at
most once); `totalScore` and `totalPossible` are the sums of the two section
scores and totals. -/
theorem summarize_ids_invariants (quiz : QuizData) (answers : AnswerData)
    (um : JStr → Option ℚ) (uf : JStr → Option JSVal) :
    (∀ id, id ∈ (summarizeObjective quiz answers um uf).mcq.correctIds →
      id ∉ (summarizeObjective quiz answers um uf).mcq.incorrectIds) ∧
    (∀ id, id ∈ (summarizeObjective quiz answers um uf).fillins.correctIds →
      id ∉ (summarizeObjective quiz answers um uf).fillins.incorrectIds) ∧
    (summarizeObjective quiz answers um uf).mcq.correctIds.Sublist
      (quiz.mcq.map McqQuestion.id) ∧
    (summarizeObjective quiz answers um uf).mcq.incorrectIds.Sublist
      (quiz.mcq.map McqQuestion.id) ∧
    (summarizeObjective quiz answers um uf).fillins.correctIds.Sublist
      (quiz.fillins.map FillinQuestion.id) ∧
    (summarizeObjective quiz answers um uf).fillins.incorrectIds.Sublist
      (quiz.fillins.map FillinQuestion.id) ∧
    ((quiz.mcq.map McqQuestion.id).Nodup →
      (summarizeObjective quiz answers um uf).mcq.correctIds.Nodup ∧
      (summarizeObjective quiz answers um uf).mcq.incorrectIds.Nodup) ∧
    ((quiz.fillins.map FillinQuestion.id).Nodup →
      (summarizeObjective quiz answers um uf).fillins.correctIds.Nodup ∧
      (summarizeObjective quiz answers um uf).fillins.incorrectIds.Nodup) ∧
    (summarizeObjective quiz answers um uf).totalScore =
      (summarizeObjective quiz answers um uf).mcq.score +
        (summarizeObjective quiz answers um uf).fillins.score ∧
    (summarizeObjective quiz answers um uf).totalPossible =
      (summarizeObjective quiz answers um uf).mcq.total +
        (summarizeObjective quiz answers um uf).fillins.total := by
  have hm := summarize_mcq_eq quiz answers um uf
  have hf := summarize_fillins_eq quiz answers um uf
  refine ⟨?_, ?_, ?_, ?_, ?_, ?_, ?_, ?_, rfl, rfl⟩
  · intro id h1 h2
    rw [hm] at h1 h2
    simp only [List.mem_map, List.mem_filter] at h1 h2
    obtain ⟨q, ⟨hq, hv⟩, hid⟩ := h1
    obtain ⟨q2, ⟨hq2, hv2⟩, hid2⟩ := h2
    rw [hid] at hv
    rw [hid2] at hv2
    rw [hv] at hv2
    simp at hv2
  · intro id h1 h2
    rw [hf] at h1 h2
    simp only [List.mem_map, List.mem_filter] at h1 h2
    obtain ⟨q, ⟨hq, hv⟩, hid⟩ := h1
    obtain ⟨q2, ⟨hq2, hv2⟩, hid2⟩ := h2
    rw [hid] at hv
    rw [hid2] at hv2
    rw [hv] at hv2
    simp at hv2
  · rw [hm]
    exact (List.filter_sublist _).map _
  · rw [hm]
    exact (List.filter_sublist _).map _
  · rw [hf]
    exact (List.filter_sublist _).map _
  · rw [hf]
    exact (List.filter_sublist _).map _
  · intro hnd
    rw [hm]
    exact ⟨List.Nodup.sublist ((List.filter_sublist _).map _) hnd,
      List.Nodup.sublist ((List.filter_sublist _).map _) hnd⟩
  · intro hnd
    rw [hf]
    exact ⟨List.Nodup.sublist ((List.filter_sublist _).map _) hnd,
      List.Nodup.sublist ((List.filter_sublist _).map _) hnd⟩

/-- C10, witness: on the two-question example quiz, the correctly answered id
is not among the incorrect ids, and with distinct declared ids the correct
list is duplicate-free. -/
theorem summarize_ids_invariants_witness :
    jstr "q1" ∉ (summarizeObjective exQuiz exAnswers (fun _ => none) exUser).fillins.incorrectIds ∧
    (summarizeObjective exQuiz exAnswers (fun _ => none) exUser).fillins.correctIds.Nodup := by
  refine ⟨(summarize_ids_invariants exQuiz exAnswers (fun _ => none) exUser).2.1 (jstr "q1") ?_,
    ((summarize_ids_invariants exQuiz exAnswers (fun _ => none) exUser).2.2.2.2.2.2.2.1 ?_).1⟩
  · decide
  · decide

/-!  ### Canonical form of the whitespace pipeline

Character-level lemmas (the half-width fold and the case fold stabilize after
one application) and the canonical-whitespace invariants of
`normalizeWhitespace`, `splitOnSpace` and `joinSpace`.  -/

theorem fullWidthLookup_small {c : Nat} (h : c < 0x2018) : fullWidthLookup c = c := by
  unfold fullWidthLookup
  repeat rw [if_neg (by omega)]

theorem toHalfChar_small_fix {c : Nat} (h : c < 0x2018) : toHalfChar c = c := by
  unfold toHalfChar
  rw [if_neg (by omega), if_neg (by omega), if_neg (by omega), fullWidthLookup_small h]

theorem fullWidthLookup_cases (c : Nat) : fullWidthLookup c < 0x2018 ∨ fullWidthLookup c = c := by
  unfold fullWidthLookup
  by_cases h0 : c = 0xFF0C
  · rw [if_pos h0]; left; omega
  rw [if_neg h0]
  by_cases h1 : c = 0x3002
  · rw [if_pos h1]; left; omega
  rw [if_neg h1]
  by_cases h2 : c = 0xFF1B
  · rw [if_pos h2]; left; omega
  rw [if_neg h2]
  by_cases h3 : c = 0xFF1A
  · rw [if_pos h3]; left; omega
  rw [if_neg h3]
  by_cases h4 : c = 0xFF01
  · rw [if_pos h4]; left; omega
  rw [if_neg h4]
  by_cases h5 : c = 0xFF1F
  · rw [if_pos h5]; left; omega
  rw [if_neg h5]
  by_cases h6 : c = 0xFF08
  · rw [if_pos h6]; left; omega
  rw [if_neg h6]
  by_cases h7 : c = 0xFF09
  · rw [if_pos h7]; left; omega
  rw [if_neg h7]
  by_cases h8 : c = 0x3010
  · rw [if_pos h8]; left; omega
  rw [if_neg h8]
  by_cases h9 : c = 0x3011
  · rw [if_pos h9]; left; omega
  rw [if_neg h9]
  by_cases h10 : c = 0x201C
  · rw [if_pos h10]; left; omega
  rw [if_neg h10]
  by_cases h11 : c = 0x201D
  · rw [if_pos h11]; left; omega
  rw [if_neg h11]
  by_cases h12 : c = 0x2018
  · rw [if_pos h12]; left; omega
  rw [if_neg h12]
  by_cases h13 : c = 0x2019
  · rw [if_pos h13]; left; omega
  rw [if_neg h13]
  by_cases h14 : c = 0x3001
  · rw [if_pos h14]; left; omega
  rw [if_neg h14]
  by_cases h15 : c = 0x3000
  · rw [if_pos h15]; left; omega
  rw [if_neg h15]
  right; rfl

theorem toHalfChar_lt_or_fix (c : Nat) : toHalfChar c < 0x2018 ∨ toHalfChar c = c := by
  unfold toHalfChar FULLWIDTH_OFFSET
  split
  · omega
  · split
    · omega
    · split
      · omega
      · exact fullWidthLookup_cases c

theorem toLowerCh_idem (c : Nat) : toLowerCh (toLowerCh c) = toLowerCh c := by
  unfold toLowerCh
  split_ifs <;> omega

theorem toLowerCh_fix_of_half_fix {c : Nat} (h : toHalfChar c = c) :
    toHalfChar (toLowerCh c) = toLowerCh c := by
  unfold toLowerCh
  split_ifs with hu
  · exact toHalfChar_small_fix (by omega)
  · exact h

theorem toHalfChar_toLowerCh_toHalfChar (c : Nat) :
    toHalfChar (toLowerCh (toHalfChar c)) = toLowerCh (toHalfChar c) := by
  rcases toHalfChar_lt_or_fix c with h | h
  · exact toLowerCh_fix_of_half_fix (toHalfChar_small_fix h)
  · rw [h]
    exact toLowerCh_fix_of_half_fix h

theorem isJsWs_toLowerCh (c : Nat) : isJsWs (toLowerCh c) = isJsWs c := by
  unfold toLowerCh
  split_ifs with h
  · have h1 : isJsWs (c + 32) = false := by simp [isJsWs]; omega
    have h2 : isJsWs c = false := by simp [isJsWs]; omega
    rw [h1, h2]
  · rfl

theorem toLowerCh_eq_32 (c : Nat) : toLowerCh c = 32 ↔ c = 32 := by
  unfold toLowerCh
  split_ifs <;> omega

theorem isJsWs_32 : isJsWs 32 = true := by decide

theorem toLowerCh_32 : toLowerCh 32 = 32 := by decide

theorem canonTail_space_nil : canonTail [32] = false := rfl

theorem canonTail_space_cons (d : Nat) (t : JStr) :
    canonTail (32 :: d :: t) = (!isJsWs d && canonTail (d :: t)) := rfl

theorem canonTail_word {c : Nat} (hc : c ≠ 32) (t : JStr) :
    canonTail (c :: t) = (!isJsWs c && canonTail t) := by
  simp only [canonTail, if_neg hc]

theorem canonWs_cons (c : Nat) (t : JStr) :
    canonWs (c :: t) = (!isJsWs c && canonTail (c :: t)) := rfl

theorem headNonWs_append {a : JStr} (h : a ≠ []) (b : JStr) :
    headNonWs (a ++ b) = headNonWs a := by
  cases a with
  | nil => exact absurd rfl h
  | cons c t => rfl

theorem lastNonWs_eq_headNonWs_reverse : ∀ l : JStr, lastNonWs l = headNonWs l.reverse := by
  intro l
  induction l with
  | nil => rfl
  | cons c t ih =>
    cases t with
    | nil => rfl
    | cons d t2 =>
      have h1 : lastNonWs (c :: d :: t2) = lastNonWs (d :: t2) := rfl
      have h2 : (c :: d :: t2).reverse = (d :: t2).reverse ++ [c] := by
        rw [List.reverse_cons]
      rw [h1, ih, h2, headNonWs_append (by simp) [c]]

theorem canonTail_lastNonWs : ∀ l : JStr, canonTail l = true → lastNonWs l = true := by
  intro l
  induction l with
  | nil => intro h; rfl
  | cons c t ih =>
    intro h
    by_cases hc : c = 32
    · subst hc
      cases t with
      | nil => exact absurd h (by rw [canonTail_space_nil]; simp)
      | cons d t2 =>
        rw [canonTail_space_cons] at h
        simp at h
        have h2 : lastNonWs (32 :: d :: t2) = lastNonWs (d :: t2) := rfl
        rw [h2]
        exact ih h.2
    · rw [canonTail_word hc] at h
      simp at h
      cases t with
      | nil =>
        show (! isJsWs c) = true
        simp [h.1]
      | cons d t2 =>
        have h2 : lastNonWs (c :: d :: t2) = lastNonWs (d :: t2) := rfl
        rw [h2]
        exact ih h.2

theorem lastNonWs_of_cons {c : Nat} {t : JStr} (h : lastNonWs (c :: t) = true) :
    lastNonWs t = true := by
  cases t with
  | nil => rfl
  | cons d t2 => exact h

theorem headNonWs_collapse_true : ∀ l : JStr, headNonWs (collapseWsAux true l) = true := by
  intro l
  induction l with
  | nil => rfl
  | cons c t ih =>
    simp only [collapseWsAux]
    by_cases hc : isJsWs c = true
    · rw [if_pos hc, if_pos trivial]
      exact ih
    · rw [if_neg hc]
      show (! isJsWs c) = true
      simp at hc
      simp [hc]

theorem collapse_true_ne_nil : ∀ l : JStr, l ≠ [] → lastNonWs l = true →
    collapseWsAux true l ≠ [] := by
  intro l
  induction l with
  | nil => intro h; exact absurd rfl h
  | cons c t ih =>
    intro _ hl
    by_cases hc : isJsWs c = true
    · cases t with
      | nil =>
        exfalso
        have : (! isJsWs c) = true := hl
        simp [hc] at this
      | cons d t2 =>
        have he : collapseWsAux true (c :: d :: t2) = collapseWsAux true (d :: t2) := by
          simp [collapseWsAux, hc]
        rw [he]
        exact ih (by simp) hl
    · have he : collapseWsAux true (c :: t) = c :: collapseWsAux false t := by
        simp [collapseWsAux, hc]
      rw [he]
      simp

theorem canonTail_collapse : ∀ l : JStr, ∀ b : Bool, lastNonWs l = true →
    canonTail (collapseWsAux b l) = true := by
  intro l
  induction l with
  | nil => intro b _; cases b <;> rfl
  | cons c rest ih =>
    intro b hl
    by_cases hc : isJsWs c = true
    · cases rest with
      | nil =>
        exfalso
        have : (! isJsWs c) = true := hl
        simp [hc] at this
      | cons d t =>
        have hl2 : lastNonWs (d :: t) = true := hl
        cases b with
        | true =>
          have he : collapseWsAux true (c :: d :: t) = collapseWsAux true (d :: t) := by
            simp [collapseWsAux, hc]
          rw [he]
          exact ih true hl2
        | false =>
          have he : collapseWsAux false (c :: d :: t) = 32 :: collapseWsAux true (d :: t) := by
            simp [collapseWsAux, hc]
          rw [he]
          cases ho : collapseWsAux true (d :: t) with
          | nil => exact absurd ho (collapse_true_ne_nil (d :: t) (by simp) hl2)
          | cons e t2 =>
            rw [canonTail_space_cons]
            have hhe : headNonWs (e :: t2) = true := by
              rw [← ho]; exact headNonWs_collapse_true (d :: t)
            have hce : canonTail (e :: t2) = true := by
              rw [← ho]; exact ih true hl2
            have : (! isJsWs e) = true := hhe
            simp [this, hce]
    · have he : collapseWsAux b (c :: rest) = c :: collapseWsAux false rest := by
        cases b <;> simp [collapseWsAux, hc]
      rw [he]
      have hc32 : c ≠ 32 := by
        intro hx
        subst hx
        exact hc isJsWs_32
      rw [canonTail_word hc32]
      simp at hc
      simp [hc, ih false (lastNonWs_of_cons hl)]

theorem headNonWs_dropWhile (l : JStr) : headNonWs (l.dropWhile isJsWs) = true := by
  cases h : l.dropWhile isJsWs with
  | nil => rfl
  | cons c t =>
    show (! isJsWs c) = true
    have hw := List.head?_dropWhile_not isJsWs l
    rw [h] at hw
    simp at hw
    simp [hw]

theorem headNonWs_jsTrim (l : JStr) : headNonWs (jsTrim l) = true := by
  unfold jsTrim
  cases hb : ((l.dropWhile isJsWs).reverse.dropWhile isJsWs).reverse with
  | nil => rfl
  | cons c t =>
    have hpre : ((l.dropWhile isJsWs).reverse.dropWhile isJsWs).reverse <+:
        ((l.dropWhile isJsWs).reverse).reverse :=
      List.reverse_prefix.mpr (List.dropWhile_suffix isJsWs)
    rw [List.reverse_reverse, hb] at hpre
    obtain ⟨rest, hrest⟩ := hpre
    have := headNonWs_dropWhile l
    rw [← hrest] at this
    simpa [headNonWs] using this

theorem lastNonWs_jsTrim (l : JStr) : lastNonWs (jsTrim l) = true := by
  rw [lastNonWs_eq_headNonWs_reverse]
  unfold jsTrim
  rw [List.reverse_reverse]
  exact headNonWs_dropWhile _

theorem canonWs_normalizeWhitespace (l : JStr) : canonWs (normalizeWhitespace l) = true := by
  unfold normalizeWhitespace
  cases ht : jsTrim l with
  | nil => rfl
  | cons c t =>
    have hh : headNonWs (c :: t) = true := by rw [← ht]; exact headNonWs_jsTrim l
    have hl : lastNonWs (c :: t) = true := by rw [← ht]; exact lastNonWs_jsTrim l
    have hc : isJsWs c = false := by simpa [headNonWs] using hh
    have he : collapseWsAux false (c :: t) = c :: collapseWsAux false t := by
      simp [collapseWsAux, hc]
    rw [he, canonWs_cons]
    have hc32 : c ≠ 32 := by
      intro hx; subst hx; simp [isJsWs_32] at hc
    rw [canonTail_word hc32]
    simp [hc]
    exact canonTail_collapse t false (lastNonWs_of_cons hl)

theorem collapse_canonTail_fix : ∀ l : JStr, canonTail l = true →
    collapseWsAux false l = l ∧ (headNonWs l = true → collapseWsAux true l = l) := by
  intro l
  induction l with
  | nil => intro _; exact ⟨rfl, fun _ => rfl⟩
  | cons c rest ih =>
    intro h
    by_cases hc : c = 32
    · subst hc
      cases rest with
      | nil => exact absurd h (by rw [canonTail_space_nil]; simp)
      | cons d t =>
        rw [canonTail_space_cons] at h
        simp at h
        obtain ⟨hd, hct⟩ := h
        have ihr := ih hct
        have h1 : collapseWsAux true (d :: t) = d :: t :=
          ihr.2 (by simp [headNonWs, hd])
        constructor
        · have he : collapseWsAux false (32 :: d :: t) = 32 :: collapseWsAux true (d :: t) := by
            simp [collapseWsAux, isJsWs_32]
          rw [he, h1]
        · intro hh
          have : (! isJsWs 32) = true := hh
          simp [isJsWs_32] at this
    · rw [canonTail_word hc] at h
      simp at h
      obtain ⟨hcw, hct⟩ := h
      have ihr := ih hct
      have h1 : collapseWsAux false (c :: rest) = c :: collapseWsAux false rest := by
        simp [collapseWsAux, hcw]
      have h2 : collapseWsAux true (c :: rest) = c :: collapseWsAux false rest := by
        simp [collapseWsAux, hcw]
      exact ⟨by rw [h1, ihr.1], fun _ => by rw [h2, ihr.1]⟩

theorem jsTrim_canon_fix {l : JStr} (hh : headNonWs l = true) (hl : lastNonWs l = true) :
    jsTrim l = l := by
  unfold jsTrim
  have h1 : l.dropWhile isJsWs = l := by
    cases l with
    | nil => rfl
    | cons c t =>
      have hc : isJsWs c = false := by simpa [headNonWs] using hh
      exact List.dropWhile_cons_of_neg (by simp [hc])
  rw [h1]
  have hh2 : headNonWs l.reverse = true := by
    rw [← lastNonWs_eq_headNonWs_reverse]; exact hl
  have h2 : l.reverse.dropWhile isJsWs = l.reverse := by
    cases hr : l.reverse with
    | nil => rfl
    | cons c t =>
      rw [hr] at hh2
      have hc : isJsWs c = false := by simpa [headNonWs] using hh2
      exact List.dropWhile_cons_of_neg (by simp [hc])
  rw [h2, List.reverse_reverse]

theorem normalizeWhitespace_canon_fix {l : JStr} (h : canonWs l = true) :
    normalizeWhitespace l = l := by
  cases l with
  | nil => rfl
  | cons c t =>
    rw [canonWs_cons] at h
    simp at h
    obtain ⟨hc, hct⟩ := h
    unfold normalizeWhitespace
    rw [jsTrim_canon_fix (by simp [headNonWs, hc]) (canonTail_lastNonWs _ hct)]
    exact (collapse_canonTail_fix _ hct).1

theorem splitOnSpace_ne_nil : ∀ l : JStr, splitOnSpace l ≠ [] := by
  intro l
  induction l with
  | nil => simp [splitOnSpace]
  | cons c rest ih =>
    by_cases hc : c = 32
    · simp [splitOnSpace, hc]
    · simp only [splitOnSpace, if_neg hc]
      cases h : splitOnSpace rest with
      | nil => simp
      | cons w ws => simp

theorem mem_splitOnSpace : ∀ (l : JStr) (w : JStr), w ∈ splitOnSpace l →
    ∀ c ∈ w, c ∈ l ∧ c ≠ 32 := by
  intro l
  induction l with
  | nil =>
    intro w hw c hc
    simp [splitOnSpace] at hw
    subst hw
    simp at hc
  | cons a rest ih =>
    intro w hw c hc
    by_cases ha : a = 32
    · subst ha
      have hs : splitOnSpace (32 :: rest) = [] :: splitOnSpace rest := by
        rw [splitOnSpace, if_pos rfl]
      rw [hs] at hw
      rcases List.mem_cons.mp hw with hw | hw
      · subst hw; simp at hc
      · have := ih w hw c hc
        exact ⟨List.mem_cons_of_mem _ this.1, this.2⟩
    · cases hsp : splitOnSpace rest with
      | nil => exact absurd hsp (splitOnSpace_ne_nil rest)
      | cons w0 ws0 =>
        have hs : splitOnSpace (a :: rest) = (a :: w0) :: ws0 := by
          rw [splitOnSpace, if_neg ha, hsp]
        rw [hs] at hw
        rcases List.mem_cons.mp hw with hw | hw
        · subst hw
          rcases List.mem_cons.mp hc with hc | hc
          · subst hc; exact ⟨by simp, ha⟩
          · have := ih w0 (by rw [hsp]; simp) c hc
            exact ⟨List.mem_cons_of_mem _ this.1, this.2⟩
        · have := ih w (by rw [hsp]; exact List.mem_cons_of_mem _ hw) c hc
          exact ⟨List.mem_cons_of_mem _ this.1, this.2⟩

theorem splitOnSpace_good :
    ∀ (n : Nat) (z : JStr), z.length ≤ n → canonTail z = true → headNonWs z = true →
      z ≠ [] → ∀ w ∈ splitOnSpace z, w ≠ [] ∧ ∀ c ∈ w, isJsWs c = false := by
  intro n
  induction n with
  | zero =>
    intro z hlen _ _ hne
    cases z with
    | nil => exact absurd rfl hne
    | cons c t => simp at hlen
  | succ n ih =>
    intro z hlen hct hh hne w hw
    cases z with
    | nil => exact absurd rfl hne
    | cons c rest =>
      have hc : isJsWs c = false := by simpa [headNonWs] using hh
      have hc32 : c ≠ 32 := by
        intro hx; subst hx; simp [isJsWs_32] at hc
      rw [canonTail_word hc32] at hct
      simp at hct
      obtain ⟨-, hctr⟩ := hct
      cases rest with
      | nil =>
        have hs : splitOnSpace [c] = [[c]] := by
          rw [splitOnSpace, if_neg hc32]
          rfl
        rw [hs] at hw
        simp at hw
        subst hw
        refine ⟨by simp, ?_⟩
        intro x hx
        simp at hx
        subst hx
        exact hc
      | cons d t =>
        by_cases hd : d = 32
        · subst hd
          cases t with
          | nil => exact absurd hctr (by rw [canonTail_space_nil]; simp)
          | cons e t2 =>
            rw [canonTail_space_cons] at hctr
            simp at hctr
            obtain ⟨he, hct2⟩ := hctr
            have hs : splitOnSpace (c :: 32 :: e :: t2) = [c] :: splitOnSpace (e :: t2) := by
              rw [splitOnSpace, if_neg hc32, splitOnSpace, if_pos rfl]
            rw [hs] at hw
            rcases List.mem_cons.mp hw with hw | hw
            · subst hw
              refine ⟨by simp, ?_⟩
              intro x hx
              simp at hx
              subst hx
              exact hc
            · exact ih (e :: t2) (by simp at hlen ⊢; omega) hct2
                (by simp [headNonWs, he]) (by simp) w hw
        · cases hsp : splitOnSpace (d :: t) with
          | nil => exact absurd hsp (splitOnSpace_ne_nil _)
          | cons w0 ws0 =>
            have hs : splitOnSpace (c :: d :: t) = (c :: w0) :: ws0 := by
              rw [splitOnSpace, if_neg hc32, hsp]
            rw [hs] at hw
            have hdw : isJsWs d = false := by
              have tmp := hctr
              rw [canonTail_word hd] at tmp
              simp at tmp
              exact tmp.1
            have hgood : ∀ w' ∈ splitOnSpace (d :: t), w' ≠ [] ∧
                ∀ c' ∈ w', isJsWs c' = false := fun w' hw' =>
              ih (d :: t) (by simp at hlen ⊢; omega) hctr
                (by simp [headNonWs, hdw]) (by simp) w' hw'
            rcases List.mem_cons.mp hw with hw | hw
            · subst hw
              have h0 := hgood w0 (by rw [hsp]; simp)
              refine ⟨by simp, ?_⟩
              intro x hx
              rcases List.mem_cons.mp hx with hx | hx
              · subst hx; exact hc
              · exact h0.2 x hx
            · exact hgood w (by rw [hsp]; exact List.mem_cons_of_mem _ hw)

theorem splitOnSpace_append_word : ∀ (w : JStr), (∀ c ∈ w, c ≠ 32) → ∀ l : JStr,
    splitOnSpace (w ++ l) = (match splitOnSpace l with
      | [] => [w]
      | w0 :: ws => (w ++ w0) :: ws) := by
  intro w
  induction w with
  | nil =>
    intro _ l
    cases h : splitOnSpace l with
    | nil => exact absurd h (splitOnSpace_ne_nil l)
    | cons w0 ws => simp [h]
  | cons c t ih =>
    intro hw l
    have hc : c ≠ 32 := hw c (by simp)
    have hr := ih (fun x hx => hw x (by simp [hx])) l
    rw [List.cons_append, splitOnSpace, if_neg hc, hr]
    cases h : splitOnSpace l with
    | nil => exact absurd h (splitOnSpace_ne_nil l)
    | cons w0 ws => rfl

theorem splitOnSpace_joinSpace : ∀ ts : List JStr, ts ≠ [] →
    (∀ w ∈ ts, ∀ c ∈ w, c ≠ 32) → splitOnSpace (joinSpace ts) = ts := by
  intro ts
  induction ts with
  | nil => intro h _; exact absurd rfl h
  | cons w ws ih =>
    intro _ hall
    cases ws with
    | nil =>
      have h := splitOnSpace_append_word w (hall w (by simp)) []
      have h0 : splitOnSpace ([] : JStr) = [[]] := rfl
      rw [h0] at h
      simp at h
      show splitOnSpace w = [w]
      exact h
    | cons w2 ws2 =>
      have hj : joinSpace (w :: w2 :: ws2) = w ++ 32 :: joinSpace (w2 :: ws2) := rfl
      rw [hj, splitOnSpace_append_word w (hall w (by simp))]
      have hs : splitOnSpace (32 :: joinSpace (w2 :: ws2)) =
          [] :: splitOnSpace (joinSpace (w2 :: ws2)) := by
        rw [splitOnSpace, if_pos rfl]
      rw [hs, ih (by simp) (fun x hx => hall x (List.mem_cons_of_mem _ hx))]
      simp

theorem mem_joinSpace : ∀ (ts : List JStr) (c : Nat), c ∈ joinSpace ts →
    (∃ w ∈ ts, c ∈ w) ∨ c = 32 := by
  intro ts
  induction ts with
  | nil => intro c hc; simp [joinSpace] at hc
  | cons w ws ih =>
    intro c hc
    cases ws with
    | nil => exact Or.inl ⟨w, by simp, hc⟩
    | cons w2 ws2 =>
      have hj : joinSpace (w :: w2 :: ws2) = w ++ 32 :: joinSpace (w2 :: ws2) := rfl
      rw [hj] at hc
      rcases List.mem_append.mp hc with hc | hc
      · exact Or.inl ⟨w, by simp, hc⟩
      · rcases List.mem_cons.mp hc with hc | hc
        · exact Or.inr hc
        · rcases ih c hc with ⟨w', hw', hcw⟩ | hc
          · exact Or.inl ⟨w', List.mem_cons_of_mem _ hw', hcw⟩
          · exact Or.inr hc

theorem canonTail_append_word : ∀ (w : JStr), (∀ c ∈ w, isJsWs c = false) → ∀ l : JStr,
    canonTail (w ++ l) = canonTail l := by
  intro w
  induction w with
  | nil => intro _ l; rfl
  | cons c t ih =>
    intro hw l
    have hc : isJsWs c = false := hw c (by simp)
    have hc32 : c ≠ 32 := by
      intro hx; subst hx; simp [isJsWs_32] at hc
    rw [List.cons_append, canonTail_word hc32, ih (fun x hx => hw x (by simp [hx])) l]
    simp [hc]

theorem canonWs_joinSpace : ∀ ts : List JStr,
    (∀ w ∈ ts, w ≠ [] ∧ ∀ c ∈ w, isJsWs c = false) → canonWs (joinSpace ts) = true := by
  intro ts
  induction ts with
  | nil => intro _; rfl
  | cons w ws ih =>
    intro hall
    obtain ⟨hne, hnw⟩ := hall w (by simp)
    cases ws with
    | nil =>
      cases w with
      | nil => exact absurd rfl hne
      | cons c t =>
        rw [show joinSpace [c :: t] = c :: t from rfl, canonWs_cons]
        have h1 : canonTail ((c :: t) ++ []) = canonTail ([] : JStr) :=
          canonTail_append_word _ hnw []
        rw [List.append_nil] at h1
        rw [h1]
        simp [hnw c (by simp), show canonTail ([] : JStr) = true from rfl]
    | cons w2 ws2 =>
      have hih := ih (fun x hx => hall x (List.mem_cons_of_mem _ hx))
      obtain ⟨hne2, _⟩ := hall w2 (by simp)
      cases w with
      | nil => exact absurd rfl hne
      | cons c t =>
        have hj : joinSpace ((c :: t) :: w2 :: ws2) =
            (c :: t) ++ 32 :: joinSpace (w2 :: ws2) := rfl
        rw [hj]
        obtain ⟨e, rest, hrest⟩ : ∃ e rest, joinSpace (w2 :: ws2) = e :: rest := by
          cases hw2 : w2 with
          | nil => exact absurd hw2 hne2
          | cons e t2 =>
            cases ws2 with
            | nil => exact ⟨e, t2, rfl⟩
            | cons w3 ws3 => exact ⟨e, t2 ++ 32 :: joinSpace (w3 :: ws3), rfl⟩
        rw [hrest] at hih ⊢
        rw [canonWs_cons] at hih
        simp at hih
        obtain ⟨hwe, hcte⟩ := hih
        have h1 : canonTail ((c :: t) ++ 32 :: e :: rest) = canonTail (32 :: e :: rest) :=
          canonTail_append_word _ hnw _
        rw [show canonWs ((c :: t) ++ 32 :: e :: rest) =
            (!isJsWs c && canonTail ((c :: t) ++ 32 :: e :: rest)) from rfl]
        rw [h1, canonTail_space_cons]
        simp [hnw c (by simp), hwe, hcte]

theorem mem_collapseWsAux : ∀ (l : JStr) (b : Bool) (c : Nat), c ∈ collapseWsAux b l →
    c ∈ l ∨ c = 32 := by
  intro l
  induction l with
  | nil => intro b c hc; simp [collapseWsAux] at hc
  | cons a rest ih =>
    intro b c hc
    by_cases ha : isJsWs a = true
    · cases b with
      | true =>
        have he : collapseWsAux true (a :: rest) = collapseWsAux true rest := by
          simp [collapseWsAux, ha]
        rw [he] at hc
        rcases ih true c hc with h | h
        · exact Or.inl (List.mem_cons_of_mem _ h)
        · exact Or.inr h
      | false =>
        have he : collapseWsAux false (a :: rest) = 32 :: collapseWsAux true rest := by
          simp [collapseWsAux, ha]
        rw [he] at hc
        rcases List.mem_cons.mp hc with h | h
        · exact Or.inr h
        · rcases ih true c h with h | h
          · exact Or.inl (List.mem_cons_of_mem _ h)
          · exact Or.inr h
    · have he : collapseWsAux b (a :: rest) = a :: collapseWsAux false rest := by
        cases b <;> simp [collapseWsAux, ha]
      rw [he] at hc
      rcases List.mem_cons.mp hc with h | h
      · exact Or.inl (by simp [h])
      · rcases ih false c h with h | h
        · exact Or.inl (List.mem_cons_of_mem _ h)
        · exact Or.inr h

theorem mem_jsTrim {l : JStr} {c : Nat} (h : c ∈ jsTrim l) : c ∈ l := by
  unfold jsTrim at h
  rw [List.mem_reverse] at h
  have h1 : c ∈ (l.dropWhile isJsWs).reverse := (List.dropWhile_suffix isJsWs).subset h
  rw [List.mem_reverse] at h1
  exact (List.dropWhile_suffix isJsWs).subset h1

theorem mem_normalizeWhitespace {l : JStr} {c : Nat} (h : c ∈ normalizeWhitespace l) :
    c ∈ l ∨ c = 32 := by
  unfold normalizeWhitespace at h
  rcases mem_collapseWsAux _ false c h with h | h
  · exact Or.inl (mem_jsTrim h)
  · exact Or.inr h

theorem canonTail_map_toLower : ∀ l : JStr, canonTail (l.map toLowerCh) = canonTail l := by
  intro l
  induction l with
  | nil => rfl
  | cons c rest ih =>
    by_cases hc : c = 32
    · subst hc
      rw [List.map_cons, toLowerCh_32]
      cases rest with
      | nil => rfl
      | cons d t =>
        rw [List.map_cons, canonTail_space_cons, canonTail_space_cons,
          isJsWs_toLowerCh, ← List.map_cons, ih]
    · have hc2 : toLowerCh c ≠ 32 := by
        intro hx
        exact hc ((toLowerCh_eq_32 c).mp hx)
      rw [List.map_cons, canonTail_word hc2, canonTail_word hc, isJsWs_toLowerCh, ih]

theorem canonWs_map_toLower (l : JStr) : canonWs (l.map toLowerCh) = canonWs l := by
  cases l with
  | nil => rfl
  | cons c rest =>
    rw [List.map_cons, canonWs_cons, canonWs_cons, isJsWs_toLowerCh, ← List.map_cons,
      canonTail_map_toLower]

theorem map_id_of_mem {f : Nat → Nat} : ∀ l : JStr, (∀ c ∈ l, f c = c) → l.map f = l := by
  intro l
  induction l with
  | nil => intro _; rfl
  | cons c rest ih =>
    intro h
    rw [List.map_cons, h c (by simp), ih (fun x hx => h x (by simp [hx]))]

/-- C8, failing input.  `zhSynonyms[word] ?? word` walks the prototype chain
of the object literal: `zhSynonyms['__proto__']` is `Object.prototype`, not
nullish, and `join(' ')` stringifies it, so one pass of `normalizeText` maps
`"__proto__"` to `"[object Object]"` while a second pass lower-cases that to
`"[object object]"`; likewise `"constructor"` hits the inherited `Object`
constructor.  Idempotence therefore fails on the program, although the spec's
own SynonymTable (a fixed three-phrase mapping) makes it the clear intent. -/
theorem normalizeText_proto_not_idempotent :
    normalizeText (jstr "__proto__") true = jstr "[object Object]" ∧
    normalizeText (normalizeText (jstr "__proto__") true) true = jstr "[object object]" ∧
    normalizeText (normalizeText (jstr "__proto__") true) true ≠
      normalizeText (jstr "__proto__") true ∧
    normalizeText (jstr "constructor") true = jstr "function Object() { [native code] }" ∧
    normalizeText (normalizeText (jstr "constructor") true) true ≠
      normalizeText (jstr "constructor") true := by
  exact ⟨by decide, by decide, by decide, by decide, by decide⟩

end LunarQuiz
